import Mathlib

/-!
Verification of `kmlib::AtomicBitVector` (src/src/kmlib/kmbitvector.h),
instantiated as in the repository with `WordType = uint64_t`.

The C++ class stores `size_ : size_type` and
`data_array_ : std::vector<AtomicWrapper<word_type>>`.  We embed it as a
structure with a `Nat` size and a list of words (each word a natural
number; the C++ `uint64_t` values are always `< 2^64`, and each mutator
preserves that bound).  The atomic fetch-or / fetch-and / CAS operations
are modelled in their sequential semantics: one thread, every CAS
against the freshly loaded value succeeds.
-/

namespace Kmlib

/-- `kBitsPerWord = sizeof(word_type) * kBitsPerByte` for `uint64_t`. -/
def kBitsPerWord : Nat := 64

/-- Embedding of `kmlib::AtomicBitVector<uint64_t>`: the field `size_`
and the word array `data_array_`. -/
structure AtomicBitVector where
  size_ : Nat
  data_array_ : List Nat
  deriving Repr, DecidableEq

namespace AtomicBitVector

/-- `AtomicBitVector(size_type size = 0)`:
`size_(size), data_array_((size + kBitsPerWord - 1) / kBitsPerWord)`;
`std::vector(n)` value-initialises, so every word is `0`. -/
def create (size : Nat) : AtomicBitVector :=
  ⟨size, List.replicate ((size + kBitsPerWord - 1) / kBitsPerWord) 0⟩

/-- `AtomicBitVector(WordIterator first, WordIterator last)`:
`size_((last - first) * kBitsPerWord), data_array_(first, last)`. -/
def ofWords (ws : List Nat) : AtomicBitVector :=
  ⟨ws.length * kBitsPerWord, ws⟩

/-- `size()`: returns `size_`. -/
def size (v : AtomicBitVector) : Nat := v.size_

/-- `set(i)`: `data_array_[i / kBitsPerWord].v.fetch_or(word_type(1) << (i % kBitsPerWord))`. -/
def set (v : AtomicBitVector) (i : Nat) : AtomicBitVector :=
  ⟨v.size_,
   v.data_array_.set (i / kBitsPerWord)
     (v.data_array_.getD (i / kBitsPerWord) 0 ||| (1 <<< (i % kBitsPerWord)))⟩

/-- `unset(i)`: `fetch_and(~(word_type(1) << (i % kBitsPerWord)))`.
On `uint64_t`, `~(1 << k) = (2^64 - 1) ^^^ (1 << k)`. -/
def unset (v : AtomicBitVector) (i : Nat) : AtomicBitVector :=
  ⟨v.size_,
   v.data_array_.set (i / kBitsPerWord)
     (v.data_array_.getD (i / kBitsPerWord) 0 &&&
       ((2 ^ kBitsPerWord - 1) ^^^ (1 <<< (i % kBitsPerWord))))⟩

/-- `at(i)`: `!!(data_array_[i / kBitsPerWord].v.load() & (word_type(1) << i % kBitsPerWord))`. -/
def at_ (v : AtomicBitVector) (i : Nat) : Bool :=
  v.data_array_.getD (i / kBitsPerWord) 0 &&& (1 <<< (i % kBitsPerWord)) != 0

/-- `try_lock(i)` in sequential semantics: load the word; if the target
bit is already 1, the loop body is skipped and it returns `false`;
otherwise the CAS against the loaded value succeeds and installs the
word with the bit set, returning `true`.  Result: (new state, return value). -/
def try_lock (v : AtomicBitVector) (i : Nat) : AtomicBitVector × Bool :=
  let old_value := v.data_array_.getD (i / kBitsPerWord) 0
  if (old_value >>> (i % kBitsPerWord)) &&& 1 = 1 then
    (v, false)
  else
    (⟨v.size_,
      v.data_array_.set (i / kBitsPerWord)
        (old_value ||| (1 <<< (i % kBitsPerWord)))⟩, true)

/-- `unlock(i)`: calls `unset(i)`. -/
def unlock (v : AtomicBitVector) (i : Nat) : AtomicBitVector :=
  v.unset i

/-- `reset(size)`: clears the storage, sets `size_ = size`, then
reallocates `(size + kBitsPerWord - 1) / kBitsPerWord` words, all `0`. -/
def reset (v : AtomicBitVector) (size : Nat) : AtomicBitVector :=
  let _ := v
  ⟨size, List.replicate ((size + kBitsPerWord - 1) / kBitsPerWord) 0⟩

/-- `swap(rhs)`: `std::swap(size_, rhs.size_); std::swap(data_array_, rhs.data_array_)`.
Result: (new `*this`, new `rhs`). -/
def swap (v rhs : AtomicBitVector) : AtomicBitVector × AtomicBitVector :=
  (⟨rhs.size_, rhs.data_array_⟩, ⟨v.size_, v.data_array_⟩)

/-- Move constructor `AtomicBitVector(AtomicBitVector &&rhs)`:
`size_(rhs.size_), data_array_(std::move(rhs.data_array_))`.
Moving a `std::vector` leaves it empty; `rhs.size_` is not touched.
Result: (constructed vector, state of `rhs` afterwards). -/
def moveCtor (rhs : AtomicBitVector) : AtomicBitVector × AtomicBitVector :=
  (⟨rhs.size_, rhs.data_array_⟩, ⟨rhs.size_, []⟩)

/-- Move assignment `operator=(AtomicBitVector &&rhs)`:
`size_ = rhs.size_; data_array_ = std::move(rhs.data_array_)`.
Result: (new `*this`, state of `rhs` afterwards). -/
def moveAssign (lhs rhs : AtomicBitVector) : AtomicBitVector × AtomicBitVector :=
  let _ := lhs
  (⟨rhs.size_, rhs.data_array_⟩, ⟨rhs.size_, []⟩)

/-- The class invariant established by every constructor and by `reset`:
the word array holds exactly `ceil(size_ / kBitsPerWord)` words. -/
def Wf (v : AtomicBitVector) : Prop :=
  v.data_array_.length = (v.size_ + kBitsPerWord - 1) / kBitsPerWord

/-- The concrete scenario of the spec: a 130-bit vector with bits
0, 63, 64, 129 set. -/
def scenario130 : AtomicBitVector :=
  ((((create 130).set 0).set 63).set 64).set 129

end AtomicBitVector

/-! ### Helper lemmas about lists and bits -/

theorem getD_replicate_zero (n i : Nat) :
    (List.replicate n (0 : Nat)).getD i 0 = 0 := by
  induction n generalizing i with
  | zero => simp [List.getD]
  | succ m ih =>
    cases i with
    | zero => simp [List.replicate, List.getD]
    | succ j => exact ih j

theorem getD_set_self (l : List Nat) (n a d : Nat) (h : n < l.length) :
    (l.set n a).getD n d = a := by
  induction l generalizing n with
  | nil => simp at h
  | cons x xs ih =>
    cases n with
    | zero => simp [List.getD]
    | succ m =>
      simp only [List.length_cons] at h
      simpa [List.getD] using ih m (Nat.lt_of_succ_lt_succ h)

theorem getD_set_ne (l : List Nat) (m n a d : Nat) (h : m ≠ n) :
    (l.set m a).getD n d = l.getD n d := by
  induction l generalizing m n with
  | nil => simp
  | cons x xs ih =>
    cases m with
    | zero =>
      cases n with
      | zero => exact absurd rfl h
      | succ j => simp [List.getD]
    | succ k =>
      cases n with
      | zero => simp [List.getD]
      | succ j =>
        have : k ≠ j := fun hkj => h (by rw [hkj])
        simpa [List.getD] using ih k j this

theorem getD_oob (l : List Nat) (n d : Nat) (h : l.length ≤ n) :
    l.getD n d = d := by
  induction l generalizing n with
  | nil => simp [List.getD]
  | cons x xs ih =>
    cases n with
    | zero => simp at h
    | succ m =>
      simp only [List.length_cons] at h
      simpa [List.getD] using ih m (Nat.le_of_succ_le_succ h)

theorem set_oob (l : List Nat) (n a : Nat) (h : l.length ≤ n) :
    l.set n a = l := by
  induction l generalizing n with
  | nil => simp
  | cons x xs ih =>
    cases n with
    | zero => simp at h
    | succ m =>
      simp only [List.length_cons] at h
      simp [List.set, ih m (Nat.le_of_succ_le_succ h)]

theorem one_shiftLeft_eq (k : Nat) : (1 : Nat) <<< k = 2 ^ k := by
  simp [Nat.shiftLeft_eq]

theorem and_pow_ne_zero_iff (w k : Nat) :
    (w &&& 2 ^ k ≠ 0) ↔ w.testBit k = true := by
  rw [Nat.and_two_pow]
  cases h : w.testBit k <;> simp [h]

theorem shiftRight_and_one_eq_one_iff (w k : Nat) :
    ((w >>> k) &&& 1 = 1) ↔ w.testBit k = true := by
  rw [Nat.and_one_is_mod, Nat.shiftRight_eq_div_pow, Nat.testBit_to_div_mod]
  simp

theorem testBit_or_pow_self (w k : Nat) : (w ||| 2 ^ k).testBit k = true := by
  simp [Nat.testBit_or, Nat.testBit_two_pow_self]

theorem testBit_or_pow_of_ne (w k m : Nat) (h : k ≠ m) :
    (w ||| 2 ^ k).testBit m = w.testBit m := by
  simp [Nat.testBit_or, Nat.testBit_two_pow_of_ne h]

theorem testBit_and_mask_self (w k : Nat) (hk : k < Kmlib.kBitsPerWord) :
    (w &&& ((2 ^ Kmlib.kBitsPerWord - 1) ^^^ (2 ^ k))).testBit k = false := by
  simp [Nat.testBit_and, Nat.testBit_xor, Nat.testBit_two_pow_sub_one,
    Nat.testBit_two_pow_self, hk]

theorem testBit_and_mask_of_ne (w k m : Nat) (hk : k ≠ m)
    (hm : m < Kmlib.kBitsPerWord) :
    (w &&& ((2 ^ Kmlib.kBitsPerWord - 1) ^^^ (2 ^ k))).testBit m = w.testBit m := by
  simp [Nat.testBit_and, Nat.testBit_xor, Nat.testBit_two_pow_sub_one,
    Nat.testBit_two_pow_of_ne hk, hm]

namespace AtomicBitVector

/-- `at(i)` reads bit `i % kBitsPerWord` of word `i / kBitsPerWord`. -/
theorem at_eq_testBit (v : AtomicBitVector) (i : Nat) :
    v.at_ i = (v.data_array_.getD (i / kBitsPerWord) 0).testBit (i % kBitsPerWord) := by
  unfold at_
  rw [one_shiftLeft_eq]
  cases h : (v.data_array_.getD (i / kBitsPerWord) 0).testBit (i % kBitsPerWord) with
  | true =>
    have := (and_pow_ne_zero_iff (v.data_array_.getD (i / kBitsPerWord) 0)
      (i % kBitsPerWord)).mpr h
    simpa using this
  | false =>
    have : ¬ (v.data_array_.getD (i / kBitsPerWord) 0 &&& 2 ^ (i % kBitsPerWord) ≠ 0) :=
      fun hc => by rw [(and_pow_ne_zero_iff _ _).mp hc] at h; exact Bool.noConfusion h
    simpa using this

/-- The word index of any in-range bit index is strictly below the word
count allocated by the size constructor / `reset`. -/
theorem wordIdx_lt_ceil (sz i : Nat) (h : i < sz) :
    i / kBitsPerWord < (sz + kBitsPerWord - 1) / kBitsPerWord := by
  obtain ⟨m, rfl⟩ : ∃ m, sz = m + 1 := ⟨sz - 1, by omega⟩
  have h1 : m + 1 + kBitsPerWord - 1 = m + kBitsPerWord := by
    have : 0 < kBitsPerWord := by decide
    omega
  rw [h1, Nat.add_div_right m (by decide : 0 < kBitsPerWord)]
  exact Nat.lt_succ_of_le (Nat.div_le_div_right (by omega))

/-- If `i` and `j` target the same word but are distinct indices, they
target distinct bit offsets within that word. -/
theorem modOffset_ne (i j : Nat) (hij : i ≠ j)
    (hd : i / kBitsPerWord = j / kBitsPerWord) :
    i % kBitsPerWord ≠ j % kBitsPerWord := by
  intro hm
  apply hij
  unfold kBitsPerWord at hd hm
  omega

theorem mod_lt_width (i : Nat) : i % kBitsPerWord < kBitsPerWord :=
  Nat.mod_lt _ (by decide)

/-- `set i` does not change the observable value of any other bit. -/
theorem at_set_of_ne (v : AtomicBitVector) (i j : Nat) (hij : i ≠ j) :
    (v.set i).at_ j = v.at_ j := by
  rw [at_eq_testBit, at_eq_testBit]
  show ((v.data_array_.set (i / kBitsPerWord) _).getD (j / kBitsPerWord) 0).testBit
      (j % kBitsPerWord) = _
  by_cases hd : i / kBitsPerWord = j / kBitsPerWord
  · by_cases hl : i / kBitsPerWord < v.data_array_.length
    · rw [← hd, getD_set_self _ _ _ _ hl, one_shiftLeft_eq,
        testBit_or_pow_of_ne _ _ _ (modOffset_ne i j hij hd), hd]
    · rw [set_oob _ _ _ (Nat.le_of_not_lt hl)]
  · rw [getD_set_ne _ _ _ _ _ hd]

/-- `unset i` does not change the observable value of any other in-width
bit offset. -/
theorem at_unset_of_ne (v : AtomicBitVector) (i j : Nat) (hij : i ≠ j) :
    (v.unset i).at_ j = v.at_ j := by
  rw [at_eq_testBit, at_eq_testBit]
  show ((v.data_array_.set (i / kBitsPerWord) _).getD (j / kBitsPerWord) 0).testBit
      (j % kBitsPerWord) = _
  by_cases hd : i / kBitsPerWord = j / kBitsPerWord
  · by_cases hl : i / kBitsPerWord < v.data_array_.length
    · rw [← hd, getD_set_self _ _ _ _ hl, one_shiftLeft_eq,
        testBit_and_mask_of_ne _ _ _ (modOffset_ne i j hij hd) (mod_lt_width j), hd]
    · rw [set_oob _ _ _ (Nat.le_of_not_lt hl)]
  · rw [getD_set_ne _ _ _ _ _ hd]

/-- `try_lock i` does not change the observable value of any other bit. -/
theorem at_try_lock_of_ne (v : AtomicBitVector) (i j : Nat) (hij : i ≠ j) :
    (v.try_lock i).1.at_ j = v.at_ j := by
  unfold try_lock
  by_cases hb : (v.data_array_.getD (i / kBitsPerWord) 0 >>> (i % kBitsPerWord)) &&& 1 = 1
  · simp only [hb, if_pos]
  · simp only [hb, if_neg, Bool.false_eq_true, not_false_eq_true]
    have := at_set_of_ne v i j hij
    rw [at_eq_testBit, at_eq_testBit] at this ⊢
    exact this

/-- After `set i` with the word index in bounds, bit `i` reads `true`. -/
theorem at_set_self (v : AtomicBitVector) (i : Nat)
    (hl : i / kBitsPerWord < v.data_array_.length) :
    (v.set i).at_ i = true := by
  rw [at_eq_testBit]
  show ((v.data_array_.set (i / kBitsPerWord) _).getD (i / kBitsPerWord) 0).testBit
      (i % kBitsPerWord) = true
  rw [getD_set_self _ _ _ _ hl, one_shiftLeft_eq, testBit_or_pow_self]

/-- After `unset i`, bit `i` reads `false` (even when the word index is
out of bounds, since missing words read as `0`). -/
theorem at_unset_self (v : AtomicBitVector) (i : Nat) :
    (v.unset i).at_ i = false := by
  rw [at_eq_testBit]
  show ((v.data_array_.set (i / kBitsPerWord) _).getD (i / kBitsPerWord) 0).testBit
      (i % kBitsPerWord) = false
  by_cases hl : i / kBitsPerWord < v.data_array_.length
  · rw [getD_set_self _ _ _ _ hl, one_shiftLeft_eq,
      testBit_and_mask_self _ _ (mod_lt_width i)]
  · rw [set_oob _ _ _ (Nat.le_of_not_lt hl),
      getD_oob _ _ _ (Nat.le_of_not_lt hl), Nat.zero_testBit]

/-- The guard of `try_lock`'s loop tests exactly the observable bit. -/
theorem try_lock_guard_iff (v : AtomicBitVector) (i : Nat) :
    ((v.data_array_.getD (i / kBitsPerWord) 0 >>> (i % kBitsPerWord)) &&& 1 = 1) ↔
      v.at_ i = true := by
  rw [at_eq_testBit]
  exact shiftRight_and_one_eq_one_iff _ _

/-- When the bit is already set, `try_lock` leaves the state unchanged and
returns `false`. -/
theorem try_lock_of_set_bit (v : AtomicBitVector) (i : Nat) (h : v.at_ i = true) :
    v.try_lock i = (v, false) := by
  unfold try_lock
  rw [if_pos ((try_lock_guard_iff v i).mpr h)]

/-- When the bit is clear, `try_lock`'s CAS (sequential semantics) installs
the same word `set` would, and it returns `true`. -/
theorem try_lock_of_clear_bit (v : AtomicBitVector) (i : Nat) (h : v.at_ i = false) :
    v.try_lock i = (v.set i, true) := by
  unfold try_lock
  rw [if_neg fun hc => by rw [(try_lock_guard_iff v i).mp hc] at h; exact Bool.noConfusion h]
  rfl

/-- For `i < w * kBitsPerWord`, the word index `i / kBitsPerWord` is below `w`. -/
theorem lt_words_of_lt {i w : Nat} (h : i < w * kBitsPerWord) :
    i / kBitsPerWord < w :=
  (Nat.div_lt_iff_lt_mul (by decide : 0 < kBitsPerWord)).mpr h

theorem getD_eq_get (l : List Nat) (n d : Nat) (h : n < l.length) :
    l.getD n d = l.get ⟨n, h⟩ := by
  induction l generalizing n with
  | nil => simp at h
  | cons x xs ih =>
    cases n with
    | zero => rfl
    | succ m =>
      simp only [List.length_cons] at h
      simpa [List.getD] using ih m (Nat.lt_of_succ_lt_succ h)

end AtomicBitVector

/-! ### Claim theorems -/

namespace AtomicBitVector

/-- C1: for every in-range index `i`, `try_lock i` returns `true` iff bit
`i` was `0` immediately before the call; when it returns `true`, bit `i`
is `1` afterward, and when bit `i` was already `1` it returns `false`. -/
theorem try_lock_spec (v : AtomicBitVector) (i : Nat)
    (hw : v.Wf) (hi : i < v.size) :
    ((v.try_lock i).2 = true ↔ v.at_ i = false) ∧
    ((v.try_lock i).2 = true → (v.try_lock i).1.at_ i = true) ∧
    (v.at_ i = true → (v.try_lock i).2 = false) := by
  have hw2 : v.data_array_.length = (v.size_ + kBitsPerWord - 1) / kBitsPerWord := hw
  have hl : i / kBitsPerWord < v.data_array_.length := by
    rw [hw2]; exact wordIdx_lt_ceil _ _ hi
  cases hbit : v.at_ i with
  | false =>
    rw [try_lock_of_clear_bit v i hbit]
    exact ⟨by simp, fun _ => at_set_self v i hl, fun hc => Bool.noConfusion hc⟩
  | true =>
    rw [try_lock_of_set_bit v i hbit]
    exact ⟨by simp [hbit], fun hc => Bool.noConfusion hc, fun _ => rfl⟩

/-- C1 witness: on a fresh 130-bit vector, bit 64 is clear, so `try_lock 64`
returns `true` and afterwards bit 64 reads `1`. -/
theorem try_lock_spec_witness :
    (((create 130).try_lock 64).2 = true ↔ (create 130).at_ 64 = false) ∧
    ((create 130).try_lock 64).1.at_ 64 = true :=
  ⟨(try_lock_spec (create 130) 64 rfl (by decide)).1,
   (try_lock_spec (create 130) 64 rfl (by decide)).2.1 (by decide)⟩

/-- C2: for in-range indices `i ≠ j`, `set i`, `unset i` and `try_lock i`
leave the observable value of bit `j` unchanged, including when `i` and
`j` fall in the same underlying word. -/
theorem bit_independence (v : AtomicBitVector) (i j : Nat)
    (_hi : i < v.size) (_hj : j < v.size) (hij : j ≠ i) :
    (v.set i).at_ j = v.at_ j ∧ (v.unset i).at_ j = v.at_ j ∧
    (v.try_lock i).1.at_ j = v.at_ j := by
  exact ⟨at_set_of_ne v i j fun h => hij h.symm,
    at_unset_of_ne v i j fun h => hij h.symm,
    at_try_lock_of_ne v i j fun h => hij h.symm⟩

/-- C2 witness: bits 63 and 64 of a 130-bit vector, same-word neighbour 62:
setting 63 leaves 62 unchanged. -/
theorem bit_independence_witness :
    ((create 130).set 63).at_ 62 = (create 130).at_ 62 :=
  (bit_independence (create 130) 63 62 (by decide) (by decide) (by decide)).1

/-- C3 counterexample: the claim that the moved-from vector has
`size() == 0` is false — the move constructor does not reset `size_`, so
after moving a 5-bit vector the source still reports size 5. -/
theorem moveCtor_source_size_ne_zero :
    (moveCtor (create 5)).2.size ≠ 0 := by decide

/-- C3 (amended): after move-construction or move-assignment of `a`, the
destination has `a`'s original size and bit values and the source's word
storage is empty, but the source's `size()` still returns `a`'s original
size (it is not reset to 0). -/
theorem move_spec (a lhs : AtomicBitVector) :
    (moveCtor a).1.size = a.size ∧ (∀ i, (moveCtor a).1.at_ i = a.at_ i) ∧
    (moveCtor a).2.data_array_ = [] ∧ (moveCtor a).2.size = a.size ∧
    (moveAssign lhs a).1.size = a.size ∧ (∀ i, (moveAssign lhs a).1.at_ i = a.at_ i) ∧
    (moveAssign lhs a).2.data_array_ = [] ∧ (moveAssign lhs a).2.size = a.size :=
  ⟨rfl, fun _ => rfl, rfl, rfl, rfl, fun _ => rfl, rfl, rfl⟩

/-- C4: `create n` has size `n` and exactly `⌈n / kBitsPerWord⌉` words,
succeeds for `n = 0` with zero words, and every in-range bit reads `false`. -/
theorem create_spec (n : Nat) :
    (create n).size = n ∧
    (create n).data_array_.length = (n + kBitsPerWord - 1) / kBitsPerWord ∧
    (create 0).data_array_ = [] ∧
    ∀ i, i < n → (create n).at_ i = false := by
  refine ⟨rfl, List.length_replicate _ _, rfl, fun i _ => ?_⟩
  rw [at_eq_testBit]
  show ((List.replicate _ (0 : Nat)).getD _ 0).testBit _ = false
  rw [getD_replicate_zero, Nat.zero_testBit]

/-- C4 witness at `n = 130`, `i = 7`. -/
theorem create_spec_witness : (create 130).at_ 7 = false :=
  (create_spec 130).2.2.2 7 (by decide)

/-- C5: for in-range `i`, after `set i` the bit reads `true`, after a
subsequent `unset i` it reads `false`, and `unlock` is exactly `unset`. -/
theorem set_unset_unlock_spec (v : AtomicBitVector) (i : Nat)
    (hw : v.Wf) (hi : i < v.size) :
    (v.set i).at_ i = true ∧ ((v.set i).unset i).at_ i = false ∧
    v.unlock i = v.unset i := by
  have hw2 : v.data_array_.length = (v.size_ + kBitsPerWord - 1) / kBitsPerWord := hw
  refine ⟨at_set_self v i ?_, at_unset_self _ _, rfl⟩
  rw [hw2]; exact wordIdx_lt_ceil _ _ hi

/-- C5 witness at a 130-bit vector, `i = 64`. -/
theorem set_unset_unlock_spec_witness : ((create 130).set 64).at_ 64 = true :=
  (set_unset_unlock_spec (create 130) 64 rfl (by decide)).1

/-- C6: `set i` twice equals `set i` once, and likewise for `unset i`
(the resulting states are equal, hence observably equal). -/
theorem set_unset_idempotent (v : AtomicBitVector) (i : Nat) :
    (v.set i).set i = v.set i ∧ (v.unset i).unset i = v.unset i := by
  constructor
  · by_cases hl : i / kBitsPerWord < v.data_array_.length
    · unfold set
      simp only [List.length_set] at *
      rw [getD_set_self _ _ _ _ hl, List.set_set, Nat.or_assoc, Nat.or_self]
    · have hv : v.set i = v := by
        unfold set
        rw [set_oob _ _ _ (Nat.le_of_not_lt hl)]
      rw [hv]; exact hv
  · by_cases hl : i / kBitsPerWord < v.data_array_.length
    · unfold unset
      simp only [List.length_set] at *
      rw [getD_set_self _ _ _ _ hl, List.set_set, Nat.and_assoc, Nat.and_self]
    · have hv : v.unset i = v := by
        unfold unset
        rw [set_oob _ _ _ (Nat.le_of_not_lt hl)]
      rw [hv]; exact hv

/-- C7: `reset n` leaves size `n` with every in-range bit `false`; in the
concrete 130-bit scenario with bits 0, 63, 64, 129 set, `at` is `true`
exactly there, and after `reset 10` the size is 10 and all bits are
`false`. -/
theorem reset_spec :
    (∀ (v : AtomicBitVector) (n : Nat), (v.reset n).size = n ∧
      ∀ i, i < n → (v.reset n).at_ i = false) ∧
    (∀ i, i < 130 → (scenario130.at_ i = true ↔ (i = 0 ∨ i = 63 ∨ i = 64 ∨ i = 129))) ∧
    (scenario130.reset 10).size = 10 ∧
    (∀ i, i < 10 → (scenario130.reset 10).at_ i = false) := by
  have hreset : ∀ (v : AtomicBitVector) (n i : Nat), (v.reset n).at_ i = false := by
    intro v n i
    rw [at_eq_testBit]
    show ((List.replicate _ (0 : Nat)).getD _ 0).testBit _ = false
    rw [getD_replicate_zero, Nat.zero_testBit]
  refine ⟨fun v n => ⟨rfl, fun i _ => hreset v n i⟩, ?_, rfl, fun i _ => hreset _ 10 i⟩
  decide

/-- C7 witness: `reset` of a vector to size 20 clears bit 3. -/
theorem reset_spec_witness : ((create 7).reset 20).at_ 3 = false :=
  (reset_spec.1 (create 7) 20).2 3 (by decide)

/-- C8: constructing from a word list `ws` yields size
`ws.length * kBitsPerWord`, and bit `i` reads bit `i % kBitsPerWord` of
word `i / kBitsPerWord` of the source list. -/
theorem ofWords_spec (ws : List Nat) :
    (ofWords ws).size = ws.length * kBitsPerWord ∧
    ∀ i, (hi : i < ws.length * kBitsPerWord) →
      (ofWords ws).at_ i =
        (ws.get ⟨i / kBitsPerWord, lt_words_of_lt hi⟩).testBit (i % kBitsPerWord) := by
  refine ⟨rfl, fun i hi => ?_⟩
  rw [at_eq_testBit]
  show (ws.getD _ 0).testBit _ = _
  rw [getD_eq_get _ _ _ (lt_words_of_lt hi)]

/-- C8 witness: for the word list `[3, 2 ^ 63]`, bit 127 is the top bit of
the second word, which is set. -/
theorem ofWords_spec_witness : (ofWords [3, 2 ^ 63]).at_ 127 = true := by
  have h : (127 : Nat) < [3, (2 : Nat) ^ 63].length * kBitsPerWord := by decide
  rw [(ofWords_spec [3, 2 ^ 63]).2 127 h]
  show ((2 : Nat) ^ 63).testBit 63 = true
  decide

/-- C9: `swap` fully exchanges the sizes and bit contents of the two
vectors. -/
theorem swap_spec (a b : AtomicBitVector) :
    (a.swap b).1.size = b.size ∧ (∀ i, (a.swap b).1.at_ i = b.at_ i) ∧
    (a.swap b).2.size = a.size ∧ ∀ i, (a.swap b).2.at_ i = a.at_ i :=
  ⟨rfl, fun _ => rfl, rfl, fun _ => rfl⟩

/-- C10: under the class invariant, every in-range bit index maps to a
word index strictly below the length of the word array, so the word
accesses of `set`, `unset`, `at` and `try_lock` are in bounds. -/
theorem word_access_in_bounds (v : AtomicBitVector) (i : Nat)
    (hw : v.Wf) (hi : i < v.size) :
    i / kBitsPerWord < v.data_array_.length := by
  have hw2 : v.data_array_.length = (v.size_ + kBitsPerWord - 1) / kBitsPerWord := hw
  rw [hw2]; exact wordIdx_lt_ceil _ _ hi

/-- C10 witness at a 130-bit vector and its last bit. -/
theorem word_access_in_bounds_witness :
    129 / kBitsPerWord < (create 130).data_array_.length :=
  word_access_in_bounds (create 130) 129 rfl (by decide)

end AtomicBitVector

end Kmlib
